import Mathlib

/-!
Shallow embedding of `tar-smart-backup.py`: a multi-level incremental backup
rotation scheduler whose state lives in filesystem naming conventions.

Filenames are modelled as `List Char` (`Str`).  A directory is modelled as the
list of filenames it contains (`os.listdir` output).  Python slices
`s[a:b]` become `(s.take b).drop a`; the negative index `s[a:-k]` becomes
`(s.take (s.length - k)).drop a`, whose `Nat` truncation agrees with Python's
clamping for the slices this program performs.  Machine integers from the CLI
(`--levels`, `--count`) are `Int`, matching unbounded Python ints; counters
parsed out of filenames are `Nat` (they come from decimal digit strings).
The external archiving engine (`tar`) is represented by its exit code and by
the files its invocation creates; the remote store is represented by the
listing of filenames it holds, and the raw `ls -1` lines read back over SSH
— which are `bytes`, not `str`, under the script's `#!/usr/bin/env python3`
shebang — by the wrapper type `PyBytes`, whose Python 3 `==` against a `str`
is always `False`.  An uncaught Python exception (e.g.
`shutil.copyfile` on a missing source, or `os.remove` on a missing path) is
modelled by a `crashed` flag / `none` result.
-/

/-- A filename / string, as a list of characters. -/
abbrev Str := List Char

/-- `EXT = '.tar.gz'` from the source. -/
def EXT : Str := ".tar.gz".data

/-- Decimal digit characters of a natural number, most significant first,
with structural fuel (any `fuel ≥ n` gives the true digit string): the
Python `"{}".format(n)` representation of a nonnegative int. -/
def digitCharsAux : Nat → Nat → Str
  | 0, n => [Nat.digitChar n]
  | fuel + 1, n =>
      if n < 10 then [Nat.digitChar n]
      else digitCharsAux fuel (n / 10) ++ [Nat.digitChar (n % 10)]

/-- Decimal digit characters of a natural number, most significant first. -/
def digitChars (n : Nat) : Str := digitCharsAux n n

/-- Python `"{:0>2}".format(num)`: the decimal form of `num` left-padded
with `'0'` to width 2. -/
def pad2 (n : Nat) : Str :=
  if (digitChars n).length < 2 then '0' :: digitChars n else digitChars n

/-- Python `int(token)` on the tokens this program splits out of its own
filenames: succeeds exactly on nonempty all-digit strings, returning their
decimal value.  (Sign/whitespace forms of `int()` never arise here because
tokens come from splitting on `'_'` inside generated names.) -/
def parseNat (s : Str) : Option Nat :=
  if s ≠ [] ∧ s.all Char.isDigit = true then
    some (s.foldl (fun a c => 10 * a + (c.toNat - 48)) 0)
  else none

/-- `is_snap(name, filename)` from the source, line for line:
`filename[:ln] == name and filename[ln + 1:ln + 1 + len('-snar-')] == '-snar-'`
(note the source's `ln + 1` start index). -/
def is_snap (name filename : Str) : Bool :=
  filename.take name.length == name &&
    ((filename.take (name.length + 1 + 6)).drop (name.length + 1)) == "-snar-".data

/-- `is_arch(name, filename)` from the source:
`filename[:len(name)] == name and filename[-len(EXT):] == EXT`. -/
def is_arch (name filename : Str) : Bool :=
  filename.take name.length == name &&
    filename.drop (filename.length - EXT.length) == EXT

/-- Python string `<=` on code points, used to model `sorted(...)`. -/
def lexLe : Str → Str → Bool
  | [], _ => true
  | _ :: _, [] => false
  | a :: as, b :: bs =>
      if a.toNat < b.toNat then true
      else if b.toNat < a.toNat then false
      else lexLe as bs

/-- Python `sorted` on a list of strings (ascending code-point order). -/
def pySorted (l : List Str) : List Str :=
  List.insertionSort (fun a b => lexLe a b = true) l

/-- `find_files(name, destination_dir)`: sorted archive filenames matching
`name` in the directory listing. -/
def find_files (name : Str) (listing : List Str) : List Str :=
  pySorted (listing.filter (fun f => is_arch name f))

/-- `find_snap_files(name, destination_dir)`: sorted checkpoint filenames
matching `name` per `is_snap`. -/
def find_snap_files (name : Str) (listing : List Str) : List Str :=
  pySorted (listing.filter (fun f => is_snap name f))

/-- The slice `filename[len(name) + 1:-len(EXT)]` taken by `parse_filename`. -/
def sliceItem (name filename : Str) : Str :=
  (filename.take (filename.length - EXT.length)).drop (name.length + 1)

/-- The values yielded by the `parse_filename` generator, in order: parse each
`'_'`-separated token as an int, stopping at the first failure. -/
def collectVals : List (Option Nat) → List Nat
  | [] => []
  | none :: _ => []
  | some v :: rest => v :: collectVals rest

/-- The sequence of numeric values `parse_filename(name, filename)` yields. -/
def parse_vals (name filename : Str) : List Nat :=
  collectVals (((sliceItem name filename).splitOn '_').map parseNat)

/-- `parse_filename(name, filename)` from the source: yields
`(part_index, value)` for consecutive part indices `0, 1, ...` until the first
token that fails to parse as an int. -/
def parse_filename (name filename : Str) : List (Nat × Nat) :=
  (parse_vals name filename).enum

/-- The inner loop of `scan_dir` over the `(part_index, value)` pairs of one
file: append the value at a fresh position, otherwise keep the max. -/
def scanStep : List Nat → List (Nat × Nat) → List Nat
  | res, [] => res
  | res, (i, v) :: rest =>
      scanStep (if res.length < i + 1 then res ++ [v] else res.set i (max (res.getD i 0) v)) rest

/-- `scan_dir(name, destination_dir)`: `None` when no archive matches,
otherwise the per-position maxima over all matching archives. -/
def scan_dir (name : Str) (listing : List Str) : Option (List Nat) :=
  if (find_files name listing).isEmpty then none
  else some ((find_files name listing).foldl (fun res f => scanStep res (parse_filename name f)) [])

/-- `find_files_for_delete(name, destination_dir, levels)`: appends the
filename once per parsed pair whose index exceeds `len(levels) - 2`
(Python int arithmetic, hence the `Int` comparison). -/
def find_files_for_delete (name : Str) (listing : List Str) (levels : List Nat) : List Str :=
  (find_files name listing).flatMap (fun f =>
    ((parse_filename name f).filter
        (fun iv => decide ((iv.1 : Int) > (levels.length : Int) - 2))).map
      (fun _ => f))

/-- CLI arguments relevant to the scheduler. -/
structure Args where
  name : Str
  levels : Int
  count : Int
  sync : Bool

/-- The `while last_num > args.count - 1` carry loop of `backup`: each
iteration records the stale files for the current `new_levels` and pops its
last entry; an empty `new_levels` means a full reset.  Returns
`(create_full, remaining new_levels, old_files_for_delete)`.  The loop pops
one entry per iteration, so it is driven by a structural counter that starts
at the length of `new_levels` (and the counter-zero case is the empty-list
case). -/
def cascadeLoop (name : Str) (listing : List Str) (count : Int) :
    Nat → List Nat → List Str → Bool × List Nat × List Str
  | _, [], old => (true, [], old)
  | 0, _ :: _, old => (true, [], old)
  | fuel + 1, a :: as, old =>
      if (((a :: as).getLastD 0 : Nat) : Int) > count - 1 then
        cascadeLoop name listing count fuel (a :: as).dropLast
          (old ++ find_files_for_delete name listing (a :: as))
      else (false, a :: as, old)

/-- Python `new_levels[-1] += 1` on a nonempty list. -/
def bumpLast (ls : List Nat) : List Nat :=
  ls.dropLast ++ [ls.getLastD 0 + 1]

/-- The planning prelude of `backup` (lines 260-294): from the scanned
frontier decide `(create_full, new_levels, old_files_for_delete)`. -/
def backup_plan (a : Args) (listing : List Str) : Bool × List Nat × List Str :=
  match scan_dir a.name listing with
  | none => (true, [], [])
  | some levels =>
      if levels.isEmpty then (false, [1], [])
      else if (levels.length : Int) < a.levels - 1 then (false, levels ++ [1], [])
      else
        let r := cascadeLoop a.name listing a.count levels.length levels []
        if r.1 then (true, [], r.2.2) else (false, bumpLast r.2.1, r.2.2)

/-- Insert a filename into a directory listing (creating a file). -/
def addFile (listing : List Str) (f : Str) : List Str :=
  if f ∈ listing then listing else listing ++ [f]

/-- `silentremove`: delete a file, ignoring absence. -/
def removeFile (listing : List Str) (f : Str) : List Str :=
  listing.erase f

/-- `"{}-snar-{}".format(name, d)`: checkpoint filename at depth `d`. -/
def checkpointName (name : Str) (d : Nat) : Str :=
  name ++ "-snar-".data ++ digitChars d

/-- The incremental archive filename built by `backup_incremental`
(lines 132-135): `name`, then `"_" + "{:0>2}".format(num)` per level,
then `".tar.gz"`.  With `levels = []` this is the full-backup name. -/
def incr_filename (name : Str) (levels : List Nat) : Str :=
  (levels.foldl (fun acc num => acc ++ '_' :: pad2 num) name) ++ EXT

/-- `backup_full(args)`: silently remove the level-0 checkpoint and the full
archive, run the engine (which creates both), return
`(rc, filename, snap, new listing)`. -/
def backup_full (a : Args) (listing : List Str) (engineRc : Int) :
    Int × Str × Str × List Str :=
  let snap := checkpointName a.name 0
  let filename := a.name ++ EXT
  let l1 := removeFile (removeFile listing snap) filename
  let l2 := addFile (addFile l1 filename) snap
  (engineRc, filename, snap, l2)

/-- `backup_incremental(args, levels)`: seed the depth-`level` checkpoint by
copying the parent checkpoint when absent (`shutil.copyfile` raises — `none` —
when the parent is missing too), refresh the `.old` backup copy, run the
engine.  Returns `(rc, filename, snap, new listing)`. -/
def backup_incremental (a : Args) (levels : List Nat) (listing : List Str) (engineRc : Int) :
    Option (Int × Str × Str × List Str) :=
  let level := levels.length
  let parent_snap := checkpointName a.name (level - 1)
  let snap := checkpointName a.name level
  let old_snap := snap ++ ".old".data
  let seeded : Option (List Str) :=
    if snap ∈ listing then some listing
    else if parent_snap ∈ listing then some (addFile listing snap)
    else none
  match seeded with
  | none => none
  | some l1 =>
      let l2 := addFile (removeFile l1 old_snap) old_snap
      let filename := incr_filename a.name levels
      let l3 := addFile (addFile l2 filename) snap
      some (engineRc, filename, snap, l3)

/-- The `for filename in old_files_for_delete: os.remove(...)` loop:
`os.remove` on an absent path raises, aborting the loop.  Returns
`(crashed, listing afterwards, files actually removed)`. -/
def removeLoop : List Str → List Str → Bool × List Str × List Str
  | listing, [] => (false, listing, [])
  | listing, f :: rest =>
      if f ∈ listing then
        let r := removeLoop (listing.erase f) rest
        (r.1, r.2.1, f :: r.2.2)
      else (true, listing, [])

/-- One line of the raw `stdout.read()` output of the SSH channel in
`remote_find_files` (line 383): under the script's `#!/usr/bin/env python3`
shebang this value is `bytes`, not `str`.  The wrapped `Str` is the byte
content (the filenames here are ASCII). -/
structure PyBytes where
  data : Str
  deriving Repr, DecidableEq

/-- Python 3 `==` between a `bytes` value and a `str` value: `bytes.__eq__`
and `str.__eq__` each return `NotImplemented` on the other type, so `==`
falls back to identity and evaluates to `False` whatever the contents. -/
def pyBytesEqStr (_b : PyBytes) (_s : Str) : Bool := false

/-- Python 3 `str == bytes`, likewise always `False`. -/
def pyStrEqBytes (_s : Str) (_b : PyBytes) : Bool := false

/-- `is_arch(name, filename)` as invoked from `remote_find_files` (line 387),
where `filename` is one `bytes` line of `ls -1` output: the slices
`filename[:len(name)]` and `filename[-len(EXT):]` are again `bytes`, while
`name` and `EXT` are `str`, so each comparison is a cross-type `==`. -/
def is_arch_bytes (name : Str) (filename : PyBytes) : Bool :=
  pyBytesEqStr ⟨filename.data.take name.length⟩ name &&
    pyBytesEqStr ⟨filename.data.drop (filename.data.length - EXT.length)⟩ EXT

/-- `is_snap(name, filename)` as invoked from `remote_find_files` (line 390)
on a `bytes` filename, with the same cross-type comparisons (and the same
`ln + 1` start index as the `str` version). -/
def is_snap_bytes (name : Str) (filename : PyBytes) : Bool :=
  pyBytesEqStr ⟨filename.data.take name.length⟩ name &&
    pyBytesEqStr ⟨(filename.data.take (name.length + 1 + 6)).drop (name.length + 1)⟩
      "-snar-".data

/-- Python `sorted` on a list of `bytes` lines (ascending byte order). -/
def pySortedBytes (l : List PyBytes) : List PyBytes :=
  List.insertionSort (fun a b => lexLe a.data b.data = true) l

/-- `remote_find_files(client, args)` (lines 377-392): split the raw
`stdout.read()` bytes into lines, then return the sorted matching archives
followed by the sorted matching checkpoints.  The lines are `bytes` under
python3, so both filters compare `bytes` with `str`, always fail, and the
function returns `[]` whatever the remote directory holds. -/
def remote_find_files (name : Str) (remoteListing : List PyBytes) : List PyBytes :=
  pySortedBytes (remoteListing.filter (fun f => is_arch_bytes name f)) ++
    pySortedBytes (remoteListing.filter (fun f => is_snap_bytes name f))

/-- Python `local_filename not in remote_found` (line 419), without the
`not`: list membership tests each element with `==`, every element of
`remote_found` is `bytes` while `local_filename` is `str`, so every test —
and the membership — is `False`. -/
def pyStrInBytesList (s : Str) (l : List PyBytes) : Bool :=
  l.any (fun b => pyStrEqBytes s b)

/-- `sync_remote(args)` (lines 410-421): list the remote directory over SSH
(the listing's lines arrive as `bytes`), then upload every local
archive/checkpoint filename `not in` that listing.  Returns the filenames
uploaded, in order. -/
def sync_remote (name : Str) (localListing remoteListing : List Str) : List Str :=
  (find_files name localListing ++ find_snap_files name localListing).filter
    (fun f => !pyStrInBytesList f (remote_find_files name (remoteListing.map PyBytes.mk)))

/-- Everything one `backup(args)` invocation did, plus the resulting local
and remote listings. -/
structure StepOutcome where
  planFull : Bool
  newLevels : List Nat
  engineRan : Bool
  rc : Int
  createdArchive : Str
  createdSnap : Str
  oldFilesForDelete : List Str
  deletedFiles : List Str
  uploads : List Str
  remoteDeletes : List Str
  crashed : Bool
  files : List Str
  remote : List Str
  deriving Repr, DecidableEq

/-- `backup(args)` (lines 257-310): plan, run the engine (full or
incremental), and on success upload the new artifacts (when `--sync`), delete
the stale local archives, delete them remotely, and run `sync_remote`. -/
def backup (a : Args) (engineRc : Int) (remote : List Str) (listing : List Str) : StepOutcome :=
  let p := backup_plan a listing
  let create_full := p.1
  let new_levels := p.2.1
  let old_files := p.2.2
  let eng : Option (Int × Str × Str × List Str) :=
    if create_full then some (backup_full a listing engineRc)
    else backup_incremental a new_levels listing engineRc
  match eng with
  | none =>
      { planFull := create_full, newLevels := new_levels, engineRan := false, rc := 0,
        createdArchive := [], createdSnap := [], oldFilesForDelete := old_files,
        deletedFiles := [], uploads := [], remoteDeletes := [], crashed := true,
        files := listing, remote := remote }
  | some (rc, filename, snap, l1) =>
      if rc == 0 then
        let uploads1 := if a.sync then [filename, snap] else []
        let remote1 := if a.sync then addFile (addFile remote filename) snap else remote
        let d := removeLoop l1 old_files
        if d.1 then
          { planFull := create_full, newLevels := new_levels, engineRan := true, rc := rc,
            createdArchive := filename, createdSnap := snap, oldFilesForDelete := old_files,
            deletedFiles := d.2.2, uploads := uploads1, remoteDeletes := [], crashed := true,
            files := d.2.1, remote := remote1 }
        else
          let remoteDel := if a.sync && !old_files.isEmpty then old_files else []
          let remote2 := if a.sync then old_files.foldl removeFile remote1 else remote1
          let uploads2 := if a.sync then sync_remote a.name d.2.1 remote2 else []
          { planFull := create_full, newLevels := new_levels, engineRan := true, rc := rc,
            createdArchive := filename, createdSnap := snap, oldFilesForDelete := old_files,
            deletedFiles := d.2.2, uploads := uploads1 ++ uploads2, remoteDeletes := remoteDel,
            crashed := false, files := d.2.1, remote := uploads2.foldl addFile remote2 }
      else
        { planFull := create_full, newLevels := new_levels, engineRan := true, rc := rc,
          createdArchive := filename, createdSnap := snap, oldFilesForDelete := old_files,
          deletedFiles := [], uploads := [], remoteDeletes := [], crashed := false,
          files := l1, remote := remote }

/-- `n` sequential `backup` invocations (fresh processes) against the same
destination directory, starting empty, each with a successful engine and no
`--sync`: the outcomes in order, and the final directory listing. -/
def runBackups (a : Args) : Nat → List StepOutcome × List Str
  | 0 => ([], [])
  | n + 1 =>
      let r := runBackups a n
      let o := backup a 0 [] r.2
      (r.1 ++ [o], o.files)

/-- The restore sequencer inside `restore(args)` (lines 313-336): the sorted
matching archives, each paired with the checkpoint filename at the depth
recovered by decoding it (`len(parts)`). -/
def restore_plan (name : Str) (listing : List Str) : List (Str × Str) :=
  (find_files name listing).map (fun f =>
    (f, checkpointName name (parse_filename name f).length))

/-! ### Digit strings -/

theorem digitChar_isDigit {m : Nat} (h : m < 10) : (Nat.digitChar m).isDigit = true := by
  interval_cases m <;> decide

theorem digitChar_toNat {m : Nat} (h : m < 10) : (Nat.digitChar m).toNat - 48 = m := by
  interval_cases m <;> decide

theorem digitCharsAux_congr (f1 : Nat) : ∀ f2 n, n ≤ f1 → n ≤ f2 →
    digitCharsAux f1 n = digitCharsAux f2 n := by
  induction f1 with
  | zero =>
      intro f2 n h1 _h2
      have hn : n = 0 := by omega
      subst hn
      cases f2 <;> simp [digitCharsAux]
  | succ f ih =>
      intro f2 n h1 h2
      cases f2 with
      | zero =>
          have hn : n = 0 := by omega
          subst hn
          simp [digitCharsAux]
      | succ g =>
          by_cases h10 : n < 10
          · simp [digitCharsAux, h10]
          · simp only [digitCharsAux, if_neg h10]
            rw [ih g (n / 10) (by omega) (by omega)]

theorem digitChars_eq (n : Nat) :
    digitChars n =
      if n < 10 then [Nat.digitChar n]
      else digitChars (n / 10) ++ [Nat.digitChar (n % 10)] := by
  by_cases h : n < 10
  · cases n <;> simp [digitChars, digitCharsAux, h]
  · cases n with
    | zero => omega
    | succ m =>
        simp only [digitChars, digitCharsAux, if_neg h]
        rw [digitCharsAux_congr m ((m + 1) / 10) ((m + 1) / 10) (by omega) (by omega)]

theorem digitChars_ne_nil (n : Nat) : digitChars n ≠ [] := by
  rw [digitChars_eq]
  split <;> simp

theorem digitChars_isDigit (n : Nat) : ∀ c ∈ digitChars n, c.isDigit = true := by
  induction n using Nat.strong_induction_on with
  | _ n ih =>
      rw [digitChars_eq]
      by_cases h : n < 10
      · simp only [if_pos h, List.mem_singleton]
        intro c hc
        subst hc
        exact digitChar_isDigit h
      · simp only [if_neg h, List.mem_append, List.mem_singleton]
        intro c hc
        rcases hc with hc | hc
        · exact ih (n / 10) (by omega) c hc
        · subst hc
          exact digitChar_isDigit (by omega)

theorem digitChars_foldl (n : Nat) : ∀ acc : Nat,
    (digitChars n).foldl (fun a c => 10 * a + (c.toNat - 48)) acc
      = acc * 10 ^ (digitChars n).length + n := by
  induction n using Nat.strong_induction_on with
  | _ n ih =>
      intro acc
      rw [digitChars_eq]
      by_cases h : n < 10
      · simp only [if_pos h, List.foldl_cons, List.foldl_nil, List.length_singleton]
        rw [digitChar_toNat h]
        ring_nf
      · simp only [if_neg h, List.foldl_append, List.foldl_cons, List.foldl_nil,
          List.length_append, List.length_singleton]
        rw [ih (n / 10) (by omega) acc, digitChar_toNat (by omega : n % 10 < 10)]
        have hdm : 10 * (n / 10) + n % 10 = n := Nat.div_add_mod n 10
        calc 10 * (acc * 10 ^ (digitChars (n / 10)).length + n / 10) + n % 10
            = acc * 10 ^ ((digitChars (n / 10)).length + 1) + (10 * (n / 10) + n % 10) := by
              rw [pow_succ]; ring
          _ = acc * 10 ^ ((digitChars (n / 10)).length + 1) + n := by rw [hdm]

theorem pad2_ne_nil (a : Nat) : pad2 a ≠ [] := by
  unfold pad2
  split
  · simp
  · exact digitChars_ne_nil a

theorem pad2_isDigit (a : Nat) : ∀ c ∈ pad2 a, c.isDigit = true := by
  unfold pad2
  split
  · intro c hc
    rcases List.mem_cons.mp hc with hc | hc
    · subst hc; decide
    · exact digitChars_isDigit a c hc
  · exact digitChars_isDigit a

theorem pad2_no_underscore (a : Nat) : '_' ∉ pad2 a := by
  intro h
  have := pad2_isDigit a _ h
  simp at this

theorem parseNat_pad2 (a : Nat) : parseNat (pad2 a) = some a := by
  unfold parseNat
  rw [if_pos ⟨pad2_ne_nil a, List.all_eq_true.mpr (pad2_isDigit a)⟩]
  congr 1
  unfold pad2
  split
  · simp only [List.foldl_cons]
    have h0 : (10 : Nat) * 0 + ('0'.toNat - 48) = 0 := by decide
    rw [h0, digitChars_foldl a 0]
    simp
  · rw [digitChars_foldl a 0]
    simp

/-! ### Claim C4: the program's own checkpoint names versus `is_snap` -/

/-- C4: the claim is FALSE on the code.  `is_snap` compares
`filename[ln + 1:ln + 7]` (one character past the end of the name) against
`'-snar-'`, so for the program's own checkpoint filename
`name + '-snar-' + d` that slice reads `'snar-' + first digit` and the
comparison never succeeds: for every backup name and depth, `is_snap`
rejects the checkpoint filename the program itself generates. -/
theorem is_snap_rejects_generated_checkpoints (name : Str) (d : Nat) :
    is_snap name (checkpointName name d) = false := by
  have hx : checkpointName name d = name ++ ('-' :: ("snar-".data ++ digitChars d)) := by
    simp [checkpointName]
  have h1 : (name ++ ('-' :: ("snar-".data ++ digitChars d))).take (name.length + 1 + 6)
      = name ++ ('-' :: ("snar-".data ++ digitChars d)).take 7 := by
    have h := @List.take_append _ name ('-' :: ("snar-".data ++ digitChars d)) 7
    simpa using h
  have h2 : (name ++ ('-' :: ("snar-".data ++ digitChars d)).take 7).drop (name.length + 1)
      = (('-' :: ("snar-".data ++ digitChars d)).take 7).drop 1 := by
    exact @List.drop_append _ name (('-' :: ("snar-".data ++ digitChars d)).take 7) 1
  have h3 : (('-' :: ("snar-".data ++ digitChars d)).take 7).drop 1
      = ("snar-".data ++ digitChars d).take 6 := by
    simp
  have h4 : ("snar-".data ++ digitChars d).take 6 ≠ "-snar-".data := by
    intro hcontra
    have : (("snar-".data ++ digitChars d).take 6).head? = some 's' := by
      simp [String.data]
    rw [hcontra] at this
    simp [String.data] at this
  rw [is_snap, hx, h1, h2, h3]
  rw [beq_eq_false_iff_ne.mpr h4, Bool.and_false]

/-! ### Concrete claim scenarios (C1, C3, C5, C9) -/

/-- C1 (Scenario A): with policy `levels = 3`, `count = 2`, five sequential
backup invocations of a fixed name against an initially empty destination
create, in this order, `NAME.tar.gz`, `NAME_01.tar.gz`, `NAME_01_01.tar.gz`,
`NAME_01_02.tar.gz`, `NAME_02.tar.gz`; the first four invocations delete
nothing and the fifth deletes exactly `NAME_01_01.tar.gz` and
`NAME_01_02.tar.gz`, leaving exactly `NAME.tar.gz`, `NAME_01.tar.gz`,
`NAME_02.tar.gz` as the archives in the destination. -/
theorem backup_scenarioA :
    (((runBackups { name := "NAME".data, levels := 3, count := 2, sync := false } 5).1.map
        (fun o => o.createdArchive)) =
      ["NAME.tar.gz".data, "NAME_01.tar.gz".data, "NAME_01_01.tar.gz".data,
        "NAME_01_02.tar.gz".data, "NAME_02.tar.gz".data]) ∧
    (((runBackups { name := "NAME".data, levels := 3, count := 2, sync := false } 5).1.map
        (fun o => o.deletedFiles)) =
      [[], [], [], [], ["NAME_01_01.tar.gz".data, "NAME_01_02.tar.gz".data]]) ∧
    (find_files "NAME".data
        (runBackups { name := "NAME".data, levels := 3, count := 2, sync := false } 5).2 =
      ["NAME.tar.gz".data, "NAME_01.tar.gz".data, "NAME_02.tar.gz".data]) := by
  decide

/-- C3: the claim is FALSE on the code — both Scenario E and idempotence
fail.  `remote_find_files` compares the `bytes` lines of the `ls -1` output
against `str` values, so under python3 every filter fails and the remote
listing it returns is empty whatever the remote holds; and the broken
`is_snap` (see `is_snap_rejects_generated_checkpoints`) means
`find_snap_files` lists no local checkpoints.  Hence with local files
`{A.tar.gz, A-snar-0}` and remote listing `{A.tar.gz}`, `sync_remote`
uploads exactly `A.tar.gz` — already present remotely — and never the
missing checkpoint `A-snar-0` the spec requires; and a second call after
that upload (the remote store unchanged, since `A.tar.gz` was already there)
re-uploads `A.tar.gz` again instead of uploading nothing. -/
theorem sync_remote_scenarioE_reuploads_archive :
    remote_find_files "A".data (["A.tar.gz".data].map PyBytes.mk) = [] ∧
    find_snap_files "A".data ["A.tar.gz".data, "A-snar-0".data] = [] ∧
    sync_remote "A".data ["A.tar.gz".data, "A-snar-0".data] ["A.tar.gz".data]
      = ["A.tar.gz".data] ∧
    "A-snar-0".data ∉
      sync_remote "A".data ["A.tar.gz".data, "A-snar-0".data] ["A.tar.gz".data] ∧
    sync_remote "A".data ["A.tar.gz".data, "A-snar-0".data]
        (addFile ["A.tar.gz".data] "A.tar.gz".data) = ["A.tar.gz".data] := by
  decide

/-- C5 (Scenario D): given exactly the archives `NAME.tar.gz`,
`NAME_01.tar.gz`, `NAME_02.tar.gz` (listed in any directory order), the
restore sequencer replays them in exactly that order, pairing each with the
checkpoint at its decoded depth: `NAME-snar-0`, `NAME-snar-1`, `NAME-snar-1`
respectively. -/
theorem restore_plan_scenarioD :
    restore_plan "NAME".data
        ["NAME_01.tar.gz".data, "NAME.tar.gz".data, "NAME_02.tar.gz".data] =
      [("NAME.tar.gz".data, "NAME-snar-0".data),
        ("NAME_01.tar.gz".data, "NAME-snar-1".data),
        ("NAME_02.tar.gz".data, "NAME-snar-1".data)] := by
  decide

/-- C9: in the carry/rollover cascade reached at the eighth invocation under
policy `levels = 3`, `count = 2` (directory holding `NAME.tar.gz`,
`NAME_01.tar.gz`, `NAME_02.tar.gz`, `NAME_02_01.tar.gz`, `NAME_02_02.tar.gz`
plus checkpoints), the working level path `[2]` makes
`find_files_for_delete` return `NAME_02_01.tar.gz` twice (it has two parsed
pairs at positions at or beyond the deepest remaining position), the
accumulated `old_files_for_delete` of that invocation holds it three times,
and the deletion loop therefore calls `os.remove` on an already-removed path:
the invocation ends in the uncaught-`OSError` branch (`crashed = true`). -/
theorem find_files_for_delete_duplicates_crash :
    ((find_files_for_delete "NAME".data
        (runBackups { name := "NAME".data, levels := 3, count := 2, sync := false } 7).2
        [2]).count "NAME_02_01.tar.gz".data = 2) ∧
    (((backup { name := "NAME".data, levels := 3, count := 2, sync := false } 0 []
        (runBackups { name := "NAME".data, levels := 3, count := 2, sync := false } 7).2
          ).oldFilesForDelete.count "NAME_02_01.tar.gz".data = 3)) ∧
    ((backup { name := "NAME".data, levels := 3, count := 2, sync := false } 0 []
        (runBackups { name := "NAME".data, levels := 3, count := 2, sync := false } 7).2
          ).crashed = true) := by
  decide

/-! ### Naming-codec lemmas -/

theorem parseNat_nil : parseNat [] = none := by
  simp [parseNat]

theorem is_arch_name_append (name r : Str) : is_arch name ((name ++ r) ++ EXT) = true := by
  unfold is_arch
  have h1 : ((name ++ r) ++ EXT).take name.length = name := by
    rw [List.append_assoc]
    exact List.take_left name (r ++ EXT)
  have hlen : ((name ++ r) ++ EXT).length - EXT.length = (name ++ r).length := by
    simp; omega
  rw [h1, hlen, List.drop_left]
  simp

theorem parse_vals_bare (name : Str) : parse_vals name (name ++ EXT) = [] := by
  have h1 : sliceItem name (name ++ EXT) = [] := by
    unfold sliceItem
    have hlen : (name ++ EXT).length - EXT.length = name.length := by simp
    rw [hlen, List.take_left]
    exact List.drop_eq_nil_of_le (by omega)
  rw [parse_vals, h1]
  simp [List.splitOn, List.splitOnP_nil, parseNat, collectVals]

theorem incr_foldl (p : List Nat) : ∀ s : Str,
    p.foldl (fun acc num => acc ++ '_' :: pad2 num) s
      = s ++ p.flatMap (fun a => '_' :: pad2 a) := by
  induction p with
  | nil => intro s; simp
  | cons a rest ih =>
      intro s
      simp only [List.foldl_cons, List.flatMap_cons, ih]
      simp

theorem incr_filename_eq (name : Str) (p : List Nat) :
    incr_filename name p = (name ++ p.flatMap (fun a => '_' :: pad2 a)) ++ EXT := by
  unfold incr_filename
  rw [incr_foldl]

theorem splitOn_parts (a : Nat) (rest : List Nat) :
    (pad2 a ++ rest.flatMap (fun x => '_' :: pad2 x)).splitOn '_'
      = pad2 a :: rest.map pad2 := by
  induction rest generalizing a with
  | nil =>
      simp only [List.flatMap_nil, List.append_nil, List.map_nil]
      unfold List.splitOn
      refine List.splitOnP_eq_single _ _ ?_
      intro x hx hbeq
      exact pad2_no_underscore a (by rwa [eq_of_beq hbeq] at hx)
  | cons b rest2 ih =>
      simp only [List.flatMap_cons, List.map_cons]
      unfold List.splitOn
      have key := List.splitOnP_first (fun c => c == '_') (pad2 a)
        (fun x hx hbeq => pad2_no_underscore a (by rwa [eq_of_beq hbeq] at hx)) '_'
        (by simp) (pad2 b ++ rest2.flatMap (fun x => '_' :: pad2 x))
      refine key.trans ?_
      have hb := ih b
      unfold List.splitOn at hb
      rw [hb]

theorem collectVals_map_some (l : List Nat) : collectVals (l.map some) = l := by
  induction l with
  | nil => rfl
  | cons a r ih => simp [collectVals, ih]

theorem parse_vals_incr (name : Str) (p : List Nat) (hne : p ≠ []) :
    parse_vals name (incr_filename name p) = p := by
  obtain ⟨a, rest, rfl⟩ := List.exists_cons_of_ne_nil hne
  rw [incr_filename_eq]
  unfold parse_vals
  have hslice : sliceItem name
      ((name ++ (a :: rest).flatMap (fun x => '_' :: pad2 x)) ++ EXT)
      = pad2 a ++ rest.flatMap (fun x => '_' :: pad2 x) := by
    unfold sliceItem
    have hlen : (((name ++ (a :: rest).flatMap (fun x => '_' :: pad2 x)) ++ EXT)).length
        - EXT.length = (name ++ (a :: rest).flatMap (fun x => '_' :: pad2 x)).length := by
      simp; omega
    rw [hlen, List.take_left]
    simp only [List.flatMap_cons, List.cons_append]
    have h := @List.drop_append _ name
      ('_' :: (pad2 a ++ rest.flatMap (fun x => '_' :: pad2 x))) 1
    simp only [List.drop_succ_cons, List.drop_zero] at h
    exact h
  rw [hslice, splitOn_parts]
  simp only [List.map_cons, parseNat_pad2, List.map_map]
  have hmap : rest.map (parseNat ∘ pad2) = rest.map some := by
    refine List.map_eq_map_iff.mpr ?_
    intro x _hx
    exact parseNat_pad2 x
  rw [hmap]
  simp [collectVals, collectVals_map_some]

theorem scan_dir_eq_none_iff (name : Str) (listing : List Str) :
    scan_dir name listing = none ↔ find_files name listing = [] := by
  unfold scan_dir
  by_cases he : (find_files name listing).isEmpty
  · simp [he, List.isEmpty_iff.mp he]
  · simp only [if_neg he]
    constructor
    · intro h; exact Option.noConfusion h
    · intro h; exact absurd (List.isEmpty_iff.mpr h) he

/-! ### Claims C6, C7, C10 -/

/-- C6: `scan_dir` returns `None` exactly when the directory listing contains
no archive filename matching the name; on a directory holding only the bare
full-backup archive `name + '.tar.gz'` it returns the empty frontier
(`some []`, not `None`); and a `None` frontier forces the planner to choose a
full backup. -/
theorem scan_dir_none_spec (name : Str) (listing : List Str) (L C : Int) (sy : Bool) :
    (scan_dir name listing = none ↔ find_files name listing = []) ∧
    scan_dir name [name ++ EXT] = some [] ∧
    (scan_dir name listing = none →
      (backup_plan { name := name, levels := L, count := C, sync := sy } listing).1 = true) := by
  refine ⟨scan_dir_eq_none_iff name listing, ?_, ?_⟩
  · have ha : is_arch name (name ++ EXT) = true := by
      have h := is_arch_name_append name []
      simpa using h
    have hff : find_files name [name ++ EXT] = [name ++ EXT] := by
      simp [find_files, pySorted, ha, List.insertionSort, List.orderedInsert]
    unfold scan_dir
    rw [hff]
    simp [parse_filename, parse_vals_bare, scanStep]
  · intro h
    simp [backup_plan, h]

/-- C7: round-trip of the naming codec.  For every backup name and every
nonempty level path of positive counters, decoding the archive filename that
the incremental encoder produces for that path yields exactly that path,
with position `i` paired with the `i`-th entry and nothing else. -/
theorem parse_incr_round_trip (name : Str) (p : List Nat) (hne : p ≠ [])
    (_hpos : ∀ x ∈ p, 1 ≤ x) :
    parse_filename name (incr_filename name p) = p.enum := by
  rw [parse_filename, parse_vals_incr name p hne]

/-- Witness for `parse_incr_round_trip` at name `data`, path `[1, 12]`. -/
theorem parse_incr_round_trip_witness :
    (([1, 12] : List Nat) ≠ [] ∧ ∀ x ∈ ([1, 12] : List Nat), 1 ≤ x) ∧
    parse_filename "data".data (incr_filename "data".data [1, 12]) = [(0, 1), (1, 12)] := by
  refine ⟨⟨by decide, by decide⟩, ?_⟩
  rw [parse_incr_round_trip "data".data [1, 12] (by decide) (by decide)]
  decide

/-- C10: when one backup name extends another (`n1 ++ s` with `s ≠ []`, e.g.
`data` and `database`), every archive filename of the longer-named backup set
satisfies `is_arch` for the shorter name, so whenever such a file is in the
directory, `find_files` for the shorter name includes it, `scan_dir` for the
shorter name sees a nonempty archive set, and the restore sequencer for the
shorter name schedules it. -/
theorem shorter_name_captures_longer_set (n1 s : Str) (_hs : s ≠ []) (p : List Nat)
    (listing : List Str) :
    is_arch n1 (incr_filename (n1 ++ s) p) = true ∧
    (incr_filename (n1 ++ s) p ∈ listing →
      incr_filename (n1 ++ s) p ∈ find_files n1 listing) ∧
    (incr_filename (n1 ++ s) p ∈ listing → scan_dir n1 listing ≠ none) ∧
    (incr_filename (n1 ++ s) p ∈ listing →
      ∃ c, (incr_filename (n1 ++ s) p, c) ∈ restore_plan n1 listing) := by
  have harch : is_arch n1 (incr_filename (n1 ++ s) p) = true := by
    rw [incr_filename_eq]
    have h := is_arch_name_append n1 (s ++ p.flatMap (fun a => '_' :: pad2 a))
    simpa [List.append_assoc] using h
  have hmem : incr_filename (n1 ++ s) p ∈ listing →
      incr_filename (n1 ++ s) p ∈ find_files n1 listing := by
    intro hin
    unfold find_files pySorted
    rw [List.mem_insertionSort]
    exact List.mem_filter.mpr ⟨hin, harch⟩
  refine ⟨harch, hmem, ?_, ?_⟩
  · intro hin hnone
    have hempty := (scan_dir_eq_none_iff n1 listing).mp hnone
    have := hmem hin
    rw [hempty] at this
    exact List.not_mem_nil _ this
  · intro hin
    unfold restore_plan
    exact ⟨checkpointName n1 (parse_filename n1 (incr_filename (n1 ++ s) p)).length,
      List.mem_map.mpr ⟨incr_filename (n1 ++ s) p, hmem hin, rfl⟩⟩

/-- Witness for `shorter_name_captures_longer_set` at names `data`/`database`
(`database = data ++ base`), path `[1]`, a directory holding that archive. -/
theorem shorter_name_captures_longer_set_witness :
    is_arch "data".data (incr_filename ("data".data ++ "base".data) [1]) = true ∧
    incr_filename ("data".data ++ "base".data) [1]
      ∈ find_files "data".data [incr_filename ("data".data ++ "base".data) [1]] := by
  have h := shorter_name_captures_longer_set "data".data "base".data (by decide) [1]
    [incr_filename ("data".data ++ "base".data) [1]]
  exact ⟨h.1, h.2.1 (List.mem_singleton.mpr rfl)⟩

/-! ### Claim C8: engine failure aborts the invocation -/

theorem backup_incremental_rc (a : Args) (levels : List Nat) (listing : List Str)
    (engineRc : Int) (t : Int × Str × Str × List Str)
    (h : backup_incremental a levels listing engineRc = some t) : t.1 = engineRc := by
  simp only [backup_incremental] at h
  split_ifs at h
  all_goals first
    | exact Option.noConfusion h
    | rw [← Option.some.inj h]

/-- C8: if the archiving engine exits non-zero during a backup invocation,
the invocation performs no upload, no remote delete and no local
stale-archive deletion, does not raise, leaves the remote store untouched,
and returns the engine's exit code. -/
theorem engine_failure_aborts (a : Args) (engineRc : Int) (remote listing : List Str)
    (h : engineRc ≠ 0) :
    (backup a engineRc remote listing).engineRan = true →
      (backup a engineRc remote listing).rc = engineRc ∧
      (backup a engineRc remote listing).uploads = [] ∧
      (backup a engineRc remote listing).remoteDeletes = [] ∧
      (backup a engineRc remote listing).deletedFiles = [] ∧
      (backup a engineRc remote listing).crashed = false ∧
      (backup a engineRc remote listing).remote = remote := by
  rcases heq : (if (backup_plan a listing).1 then some (backup_full a listing engineRc)
      else backup_incremental a (backup_plan a listing).2.1 listing engineRc) with
    _ | ⟨rc, filename, snap, l1⟩
  · simp only [backup]
    rw [heq]
    intro hcontra
    simp at hcontra
  · have hrc : rc = engineRc := by
      split at heq
      · have hh : backup_full a listing engineRc = (rc, filename, snap, l1) :=
          Option.some.inj heq
        have h1 : (backup_full a listing engineRc).1 = rc := by rw [hh]
        rw [← h1]
        rfl
      · exact backup_incremental_rc a _ listing engineRc _ heq
    simp only [backup]
    rw [heq]
    have hne : ¬((rc == 0) = true) := by
      subst hrc
      simpa using h
    simp only [if_neg hne]
    intro _
    simp [hrc]

/-- Witness for `engine_failure_aborts`: the engine exits with code 2 on the
first backup of an empty directory, `--sync` enabled. -/
theorem engine_failure_aborts_witness :
    (2 : Int) ≠ 0 ∧
    ((backup { name := "NAME".data, levels := 3, count := 2, sync := true } 2 [] []).engineRan
        = true) ∧
    ((backup { name := "NAME".data, levels := 3, count := 2, sync := true } 2 [] []).rc = 2 ∧
      (backup { name := "NAME".data, levels := 3, count := 2, sync := true } 2 [] []).uploads
        = [] ∧
      (backup { name := "NAME".data, levels := 3, count := 2, sync := true } 2 [] []).remoteDeletes
        = [] ∧
      (backup { name := "NAME".data, levels := 3, count := 2, sync := true } 2 [] []).deletedFiles
        = [] ∧
      (backup { name := "NAME".data, levels := 3, count := 2, sync := true } 2 [] []).crashed
        = false ∧
      (backup { name := "NAME".data, levels := 3, count := 2, sync := true } 2 [] []).remote
        = []) :=
  ⟨by decide, by decide,
    engine_failure_aborts { name := "NAME".data, levels := 3, count := 2, sync := true } 2 [] []
      (by decide) (by decide)⟩

/-- Witness for `scan_dir_none_spec`: an empty directory, policy `(3, 2)`. -/
theorem scan_dir_none_spec_witness :
    (scan_dir "NAME".data ([] : List Str) = none
        ↔ find_files "NAME".data ([] : List Str) = []) ∧
    scan_dir "NAME".data ["NAME".data ++ EXT] = some [] ∧
    (backup_plan { name := "NAME".data, levels := 3, count := 2, sync := false }
        ([] : List Str)).1 = true := by
  have h := scan_dir_none_spec "NAME".data [] 3 2 false
  exact ⟨h.1, h.2.1, h.2.2 (by decide)⟩

/-! ### Pointwise maxima of frontier vectors

`scan_dir`'s inner loop over one file's `(index, value)` pairs is exactly a
pointwise maximum with extension, because `parse_filename` always yields
consecutive indices starting at 0.  These vectors, ordered pointwise, bound
the scanned frontier. -/

/-- Pointwise maximum of two counter vectors, extending to the longer one. -/
def pmax : List Nat → List Nat → List Nat
  | [], bs => bs
  | a :: as, [] => a :: as
  | a :: as, b :: bs => max a b :: pmax as bs

theorem pmax_nil_right (a : List Nat) : pmax a [] = a := by
  cases a <;> rfl

theorem pmax_getD (a b : List Nat) (i : Nat) :
    (pmax a b).getD i 0 = max (a.getD i 0) (b.getD i 0) := by
  induction a generalizing b i with
  | nil => simp [pmax]
  | cons x as ih =>
      cases b with
      | nil => simp [pmax]
      | cons y bs =>
          cases i with
          | zero => simp [pmax]
          | succ j => simpa [pmax] using ih bs j

theorem pmax_length (a b : List Nat) : (pmax a b).length = max a.length b.length := by
  induction a generalizing b with
  | nil => simp [pmax]
  | cons x as ih =>
      cases b with
      | nil => simp [pmax]
      | cons y bs =>
          simp only [pmax, List.length_cons, ih bs]
          omega

/-- Pointwise order on counter vectors (length and per-position values). -/
def vle (a b : List Nat) : Prop :=
  a.length ≤ b.length ∧ ∀ i, a.getD i 0 ≤ b.getD i 0

theorem vle_refl (a : List Nat) : vle a a := ⟨le_refl _, fun _ => le_refl _⟩

theorem vle_trans {a b c : List Nat} (h1 : vle a b) (h2 : vle b c) : vle a c :=
  ⟨h1.1.trans h2.1, fun i => (h1.2 i).trans (h2.2 i)⟩

theorem vle_pmax_left (a b : List Nat) : vle a (pmax a b) :=
  ⟨by rw [pmax_length]; exact Nat.le_max_left _ _,
    fun i => by rw [pmax_getD]; exact Nat.le_max_left _ _⟩

theorem vle_pmax_right (a b : List Nat) : vle b (pmax a b) :=
  ⟨by rw [pmax_length]; exact Nat.le_max_right _ _,
    fun i => by rw [pmax_getD]; exact Nat.le_max_right _ _⟩

theorem pmax_vle {a b c : List Nat} (h1 : vle a c) (h2 : vle b c) : vle (pmax a b) c := by
  refine ⟨by rw [pmax_length]; exact max_le h1.1 h2.1, fun i => ?_⟩
  rw [pmax_getD]
  exact max_le (h1.2 i) (h2.2 i)

theorem vle_sum {a b : List Nat} (h : vle a b) : a.sum ≤ b.sum := by
  obtain ⟨hlen, hval⟩ := h
  induction b generalizing a with
  | nil =>
      have : a = [] := List.eq_nil_of_length_eq_zero (by simpa using hlen)
      simp [this]
  | cons y bs ih =>
      cases a with
      | nil => simp
      | cons x as =>
          have h0 := hval 0
          simp only [List.getD_cons_zero] at h0
          have hrest : ∀ i, as.getD i 0 ≤ bs.getD i 0 := fun i => by
            have := hval (i + 1)
            simpa using this
          have := @ih as (by simpa using hlen) hrest
          simp only [List.sum_cons]
          omega


theorem scanStep_enumFrom (vals : List Nat) : ∀ (k : Nat) (res : List Nat), k ≤ res.length →
    scanStep res (List.enumFrom k vals) = res.take k ++ pmax (res.drop k) vals := by
  induction vals with
  | nil =>
      intro k res _hk
      simp [scanStep, List.enumFrom, pmax_nil_right]
  | cons v vs ih =>
      intro k res hk
      simp only [List.enumFrom, scanStep]
      by_cases hlt : res.length < k + 1
      · have hkeq : k = res.length := by omega
        subst hkeq
        rw [if_pos hlt, ih (res.length + 1) (res ++ [v]) (by simp)]
        have h1 : (res ++ [v]).take (res.length + 1) = res ++ [v] :=
          List.take_of_length_le (by simp)
        have h2 : (res ++ [v]).drop (res.length + 1) = [] :=
          List.drop_eq_nil_of_le (by simp)
        rw [h1, h2, List.take_length, List.drop_length]
        simp [pmax]
      · rw [if_neg hlt]
        have hklt : k < res.length := by omega
        have hlen_take : (res.take k).length = k := by simp; omega
        have hset : res.set k (max (res.getD k 0) v)
            = res.take k ++ max (res.getD k 0) v :: res.drop (k + 1) :=
          List.set_eq_take_cons_drop _ hklt
        rw [ih (k + 1) _ (by simp; omega), hset]
        have htake : (res.take k ++ max (res.getD k 0) v :: res.drop (k + 1)).take (k + 1)
            = res.take k ++ [max (res.getD k 0) v] := by
          have h := @List.take_append _ (res.take k)
            (max (res.getD k 0) v :: res.drop (k + 1)) 1
          rw [hlen_take] at h
          simpa using h
        have hdrop2 : (res.take k ++ max (res.getD k 0) v :: res.drop (k + 1)).drop (k + 1)
            = res.drop (k + 1) := by
          have h := @List.drop_append _ (res.take k)
            (max (res.getD k 0) v :: res.drop (k + 1)) 1
          rw [hlen_take] at h
          simpa using h
        rw [htake, hdrop2]
        have hdropk : res.drop k = res.getD k 0 :: res.drop (k + 1) := by
          rw [List.drop_eq_getElem_cons hklt]
          rw [List.getD_eq_getElem res 0 hklt]
        rw [hdropk]
        simp [pmax]

theorem scanStep_parse (name f : Str) (res : List Nat) :
    scanStep res (parse_filename name f) = pmax res (parse_vals name f) := by
  have h := scanStep_enumFrom (parse_vals name f) 0 res (by omega)
  simpa [parse_filename, List.enum] using h

/-- The frontier `scan_dir` reconstructs, `[]` when there is none. -/
def frontierOf (name : Str) (listing : List Str) : List Nat :=
  (scan_dir name listing).getD []

theorem scan_fold_vle (name : Str) (V : List Nat) :
    ∀ (found : List Str) (init : List Nat), vle init V →
      (∀ f ∈ found, vle (parse_vals name f) V) →
      vle (found.foldl (fun res f => scanStep res (parse_filename name f)) init) V := by
  intro found
  induction found with
  | nil => intro init h _; simpa using h
  | cons g gs ih =>
      intro init hinit hall
      simp only [List.foldl_cons]
      rw [scanStep_parse]
      exact ih _ (pmax_vle hinit (hall g (List.mem_cons_self g gs)))
        (fun f hf => hall f (List.mem_cons_of_mem g hf))

theorem vle_fold_init (name : Str) :
    ∀ (found : List Str) (init : List Nat),
      vle init (found.foldl (fun res f => scanStep res (parse_filename name f)) init) := by
  intro found
  induction found with
  | nil => intro init; exact vle_refl init
  | cons g gs ih =>
      intro init
      simp only [List.foldl_cons]
      rw [scanStep_parse]
      exact vle_trans (vle_pmax_left init (parse_vals name g)) (ih (pmax init (parse_vals name g)))

theorem scan_fold_mem (name : Str) :
    ∀ (found : List Str) (init : List Nat) (f : Str), f ∈ found →
      vle (parse_vals name f)
        (found.foldl (fun res g => scanStep res (parse_filename name g)) init) := by
  intro found
  induction found with
  | nil => intro _ _ h; exact absurd h (List.not_mem_nil _)
  | cons g gs ih =>
      intro init f hf
      simp only [List.foldl_cons]
      rw [scanStep_parse]
      rcases List.mem_cons.mp hf with rfl | hf2
      · exact vle_trans (vle_pmax_right init (parse_vals name f)) (vle_fold_init name gs _)
      · exact ih _ f hf2

theorem scan_fold_length (name : Str) (m : Nat) :
    ∀ (found : List Str) (init : List Nat), init.length ≤ m →
      (∀ f ∈ found, (parse_vals name f).length ≤ m) →
      (found.foldl (fun res f => scanStep res (parse_filename name f)) init).length ≤ m := by
  intro found
  induction found with
  | nil => intro init h _; simpa using h
  | cons g gs ih =>
      intro init hinit hall
      simp only [List.foldl_cons]
      rw [scanStep_parse]
      refine ih _ ?_ (fun f hf => hall f (List.mem_cons_of_mem g hf))
      rw [pmax_length]
      exact max_le hinit (hall g (List.mem_cons_self g gs))

theorem mem_find_files {name f : Str} {listing : List Str} :
    f ∈ find_files name listing ↔ f ∈ listing ∧ is_arch name f = true := by
  unfold find_files pySorted
  rw [List.mem_insertionSort, List.mem_filter]

theorem scan_dir_of_ne_nil {name : Str} {listing : List Str}
    (h : find_files name listing ≠ []) :
    scan_dir name listing = some (frontierOf name listing) ∧
    frontierOf name listing
      = (find_files name listing).foldl (fun res f => scanStep res (parse_filename name f)) [] := by
  have he : ¬(find_files name listing).isEmpty := by simpa using h
  unfold frontierOf scan_dir
  rw [if_neg he]
  exact ⟨rfl, rfl⟩

theorem mem_addFile {l : List Str} {g f : Str} : f ∈ addFile l g ↔ f ∈ l ∨ f = g := by
  unfold addFile
  split
  · rename_i hg
    constructor
    · exact Or.inl
    · rintro (h | rfl)
      · exact h
      · exact hg
  · simp [List.mem_append]

theorem removeLoop_subset :
    ∀ (del l : List Str) (f : Str), f ∈ (removeLoop l del).2.1 → f ∈ l := by
  intro del
  induction del with
  | nil => intro l f h; simpa [removeLoop] using h
  | cons g rest ih =>
      intro l f h
      simp only [removeLoop] at h
      split at h
      · exact List.mem_of_mem_erase (ih (l.erase g) f h)
      · exact h

theorem removeLoop_mem :
    ∀ (del l : List Str) (f : Str), f ∈ l → f ∉ del → f ∈ (removeLoop l del).2.1 := by
  intro del
  induction del with
  | nil => intro l f h _; simpa [removeLoop] using h
  | cons g rest ih =>
      intro l f hf hnd
      have hfg : f ≠ g := fun hcon => hnd (hcon ▸ List.mem_cons_self g rest)
      simp only [removeLoop]
      split
      · exact ih (l.erase g) f ((List.mem_erase_of_ne hfg).mpr hf)
          (fun hcon => hnd (List.mem_cons_of_mem g hcon))
      · exact hf

theorem is_arch_suffix {name f : Str} (h : is_arch name f = true) :
    f.drop (f.length - EXT.length) = EXT := by
  unfold is_arch at h
  rw [Bool.and_eq_true] at h
  exact eq_of_beq h.2

theorem is_arch_getLast {name f : Str} (h : is_arch name f = true) :
    f.getLast? = some 'z' := by
  have hs := is_arch_suffix h
  have hsplit : f.take (f.length - EXT.length) ++ EXT = f := by
    conv_rhs => rw [← List.take_append_drop (f.length - EXT.length) f]
    rw [hs]
  rw [← hsplit, List.getLast?_append_of_ne_nil _ (by simp [EXT])]
  rfl

theorem is_arch_of_not_z {name f : Str} (h : f.getLast? ≠ some 'z') :
    is_arch name f = false := by
  cases his : is_arch name f
  · rfl
  · exact absurd (is_arch_getLast his) h

theorem checkpointName_getLast (name : Str) (d : Nat) :
    ∃ c, (checkpointName name d).getLast? = some c ∧ c.isDigit = true := by
  unfold checkpointName
  rw [List.append_assoc,
    List.getLast?_append_of_ne_nil _
      (by simp [digitChars_ne_nil d]),
    List.getLast?_append_of_ne_nil _ (digitChars_ne_nil d)]
  refine ⟨(digitChars d).getLast (digitChars_ne_nil d),
    List.getLast?_eq_getLast _ _, ?_⟩
  exact digitChars_isDigit d _ (List.getLast_mem (digitChars_ne_nil d))

theorem is_arch_checkpoint (name nm2 : Str) (d : Nat) :
    is_arch name (checkpointName nm2 d) = false := by
  obtain ⟨c, hc, hd⟩ := checkpointName_getLast nm2 d
  refine is_arch_of_not_z ?_
  rw [hc]
  intro hcon
  have : c = 'z' := by simpa using hcon
  subst this
  simp at hd

theorem is_arch_old (name nm2 : Str) (d : Nat) :
    is_arch name (checkpointName nm2 d ++ ".old".data) = false := by
  refine is_arch_of_not_z ?_
  rw [List.getLast?_append_of_ne_nil _ (by simp)]
  decide

theorem bare_getLast (x : Str) : (x ++ EXT).getLast? = some 'z' := by
  rw [List.getLast?_append_of_ne_nil _ (by simp [EXT])]
  rfl

theorem mem_find_files_for_delete {name f : Str} {listing : List Str} {ls : List Nat}
    (h : f ∈ find_files_for_delete name listing ls) :
    f ∈ find_files name listing ∧ parse_vals name f ≠ [] := by
  unfold find_files_for_delete at h
  rw [List.mem_flatMap] at h
  obtain ⟨g, hg, hmem⟩ := h
  rw [List.mem_map] at hmem
  obtain ⟨iv, hiv, rfl⟩ := hmem
  refine ⟨hg, fun hnil => ?_⟩
  have hin := (List.mem_filter.mp hiv).1
  rw [parse_filename, hnil] at hin
  simp at hin

theorem getD_take {l : List Nat} {n i : Nat} (h : i < n) :
    (l.take n).getD i 0 = l.getD i 0 := by
  rw [List.getD_eq_getElem?_getD, List.getD_eq_getElem?_getD, List.getElem?_take_of_lt h]

theorem getD_set_self {l : List Nat} {i a : Nat} (h : i < l.length) :
    (l.set i a).getD i 0 = a := by
  rw [List.getD_eq_getElem?_getD, List.getElem?_set_self h]
  rfl

theorem getD_set_ne {l : List Nat} {i j a : Nat} (h : i ≠ j) :
    (l.set i a).getD j 0 = l.getD j 0 := by
  rw [List.getD_eq_getElem?_getD, List.getD_eq_getElem?_getD, List.getElem?_set_ne h]

theorem getLastD_eq_getD {l : List Nat} (_h : l ≠ []) :
    l.getLastD 0 = l.getD (l.length - 1) 0 := by
  rw [List.getLastD_eq_getLast? 0 l, List.getLast?_eq_getElem? l, List.getD_eq_getElem?_getD]

theorem sum_set_succ : ∀ (S : List Nat) (i : Nat), i < S.length →
    (S.set i (S.getD i 0 + 1)).sum = S.sum + 1 := by
  intro S
  induction S with
  | nil => intro i h; simp at h
  | cons x xs ih =>
      intro i h
      cases i with
      | zero => simp [List.sum_cons]; omega
      | succ j =>
          simp only [List.getD_cons_succ]
          show (x :: xs.set j (xs.getD j 0 + 1)).sum = (x :: xs).sum + 1
          simp only [List.sum_cons, ih j (by simpa using h)]
          omega

theorem cascadeLoop_false (name : Str) (listing : List Str) (count : Int) :
    ∀ (fuel : Nat) (ls : List Nat) (old : List Str) (ls2 : List Nat) (old2 : List Str),
      cascadeLoop name listing count fuel ls old = (false, ls2, old2) →
      ls2 ≠ [] ∧ ls2 = ls.take ls2.length ∧ 1 ≤ ls2.length ∧ ls2.length ≤ ls.length := by
  intro fuel
  induction fuel with
  | zero =>
      intro ls old ls2 old2 h
      cases ls with
      | nil => simp [cascadeLoop] at h
      | cons a as => simp [cascadeLoop] at h
  | succ fl ih =>
      intro ls old ls2 old2 h
      cases ls with
      | nil => simp [cascadeLoop] at h
      | cons a as =>
          rw [cascadeLoop] at h
          split at h
          · obtain ⟨h1, h2, h3, h4⟩ := ih (a :: as).dropLast _ ls2 old2 h
            have hdl : (a :: as).dropLast = (a :: as).take ((a :: as).length - 1) :=
              List.dropLast_eq_take _
            have hdll : (a :: as).dropLast.length = (a :: as).length - 1 :=
              List.length_dropLast _
            have h4a : ls2.length ≤ (a :: as).length - 1 := hdll ▸ h4
            refine ⟨h1, ?_, h3, ?_⟩
            · conv_lhs => rw [h2]
              rw [hdl, List.take_take, min_eq_left h4a]
            · have : 1 ≤ (a :: as).length := by simp
              omega
          · obtain ⟨rfl, rfl⟩ : a :: as = ls2 ∧ old = old2 := by
              have h1 := congrArg Prod.fst h
              have h2 := congrArg (fun p => p.2.1) h
              have h3 := congrArg (fun p => p.2.2) h
              exact ⟨h2, h3⟩
            refine ⟨by simp, ?_, by simp, le_refl _⟩
            rw [List.take_length]

theorem cascadeLoop_true_sum (name : Str) (listing : List Str) (C : Nat) :
    ∀ (fuel : Nat) (ls : List Nat) (old : List Str),
      ls.length ≤ fuel →
      (cascadeLoop name listing (C : Int) fuel ls old).1 = true →
      C * ls.length ≤ ls.sum := by
  intro fuel
  induction fuel with
  | zero =>
      intro ls old hlen _
      have : ls = [] := List.eq_nil_of_length_eq_zero (by omega)
      simp [this]
  | succ fl ih =>
      intro ls old hlen ht
      cases ls with
      | nil => simp
      | cons a as =>
          rw [cascadeLoop] at ht
          split at ht
          · rename_i hcond
            have hlast : C ≤ (a :: as).getLastD 0 := by
              have := hcond
              omega
            have hdll : (a :: as).dropLast.length = (a :: as).length - 1 :=
              List.length_dropLast _
            have hdl := ih (a :: as).dropLast _ (by rw [hdll]; omega) ht
            have hsum : (a :: as).dropLast.sum + (a :: as).getLast (by simp) = (a :: as).sum := by
              conv_rhs => rw [← @List.dropLast_concat_getLast _ (a :: as) (by simp)]
              simp
            have hgl : (a :: as).getLastD 0 = (a :: as).getLast (by simp) := by
              rw [List.getLastD_eq_getLast? 0 _, List.getLast?_eq_getLast _ (by simp)]
              rfl
            have hlen2 : (a :: as).dropLast.length = (a :: as).length - 1 := by
              simp [List.length_dropLast]
            have hmul : C * (a :: as).length = C * (a :: as).dropLast.length + C := by
              rw [hlen2]
              simp only [List.length_cons, Nat.add_sub_cancel]
              ring
            rw [hgl] at hlast
            omega
          · simp at ht

theorem cascadeLoop_old_mem (name : Str) (listing : List Str) (count : Int) :
    ∀ (fuel : Nat) (ls : List Nat) (old : List Str) (f : Str),
      f ∈ (cascadeLoop name listing count fuel ls old).2.2 →
      f ∈ old ∨ (f ∈ find_files name listing ∧ parse_vals name f ≠ []) := by
  intro fuel
  induction fuel with
  | zero =>
      intro ls old f h
      cases ls with
      | nil => simp [cascadeLoop] at h; exact Or.inl h
      | cons a as => simp [cascadeLoop] at h; exact Or.inl h
  | succ fl ih =>
      intro ls old f h
      cases ls with
      | nil => simp [cascadeLoop] at h; exact Or.inl h
      | cons a as =>
          rw [cascadeLoop] at h
          split at h
          · rcases ih _ _ f h with hmem | hprop
            · rcases List.mem_append.mp hmem with h1 | h2
              · exact Or.inl h1
              · exact Or.inr (mem_find_files_for_delete h2)
            · exact Or.inr hprop
          · exact Or.inl h

theorem mem_addFile_removeFile {l : List Str} (g : Str) {f : Str} (h : f ∈ l) :
    f ∈ addFile (removeFile l g) g := by
  by_cases hfg : f = g
  · subst hfg
    exact mem_addFile.mpr (Or.inr rfl)
  · exact mem_addFile.mpr (Or.inl ((List.mem_erase_of_ne hfg).mpr h))

/-- The invariant maintained across successive backup invocations against the
same destination directory, with `j` an upper bound on the total of the
scanned frontier: the bare full archive is present, every matching archive
decodes to at most `L - 1` counters, a checkpoint exists at every depth up to
the frontier length, and the frontier total is at most `j`. -/
structure BackupInv (name : Str) (L : Nat) (F : List Str) (j : Nat) : Prop where
  bare : (name ++ EXT) ∈ F
  lens : ∀ f ∈ F, is_arch name f = true → (parse_vals name f).length ≤ L - 1
  snars : ∀ d, d ≤ (frontierOf name F).length → checkpointName name d ∈ F
  phi : (frontierOf name F).sum ≤ j

theorem backup_incr_shape (a : Args) (F : List Str) (nl : List Nat) (old : List Str)
    (hplan : backup_plan a F = (false, nl, old))
    (hseed : checkpointName a.name (nl.length - 1) ∈ F) :
    ∃ l3, (backup a 0 [] F).planFull = false ∧
      (backup a 0 [] F).engineRan = true ∧
      (backup a 0 [] F).newLevels = nl ∧
      (backup a 0 [] F).files = (removeLoop l3 old).2.1 ∧
      (∀ f ∈ F, f ∈ l3) ∧
      incr_filename a.name nl ∈ l3 ∧
      checkpointName a.name nl.length ∈ l3 ∧
      (∀ f ∈ l3, f ∈ F ∨ f = incr_filename a.name nl ∨ f = checkpointName a.name nl.length
        ∨ f = checkpointName a.name nl.length ++ ".old".data) := by
  have hcf : (backup_plan a F).1 = false := by rw [hplan]
  have hnl2 : (backup_plan a F).2.1 = nl := by rw [hplan]
  have hold2 : (backup_plan a F).2.2 = old := by rw [hplan]
  have h00 : ((0 : Int) == 0) = true := by decide
  set snap := checkpointName a.name nl.length with hsnap
  set old_snap := checkpointName a.name nl.length ++ ".old".data with holds
  by_cases hsmem : snap ∈ F
  · set l3 := addFile (addFile (addFile (removeFile F old_snap) old_snap)
      (incr_filename a.name nl)) snap with hl3
    have heng : backup_incremental a nl F 0 = some (0, incr_filename a.name nl, snap, l3) := by
      simp only [backup_incremental]
      rw [if_pos hsmem]
    refine ⟨l3, ?_, ?_, ?_, ?_, ?_, ?_, ?_, ?_⟩
    · simp only [backup, hcf, hnl2, hold2, Bool.false_eq_true, if_false, heng, h00, if_true]
      split <;> rfl
    · simp only [backup, hcf, hnl2, hold2, Bool.false_eq_true, if_false, heng, h00, if_true]
      split <;> rfl
    · simp only [backup, hcf, hnl2, hold2, Bool.false_eq_true, if_false, heng, h00, if_true]
      split <;> rfl
    · simp only [backup, hcf, hnl2, hold2, Bool.false_eq_true, if_false, heng, h00, if_true]
      split <;> rfl
    · intro f hf
      exact mem_addFile.mpr (Or.inl (mem_addFile.mpr (Or.inl
        (mem_addFile_removeFile old_snap hf))))
    · exact mem_addFile.mpr (Or.inl (mem_addFile.mpr (Or.inr rfl)))
    · exact mem_addFile.mpr (Or.inr rfl)
    · intro f hf
      rcases mem_addFile.mp hf with hf1 | rfl
      · rcases mem_addFile.mp hf1 with hf2 | rfl
        · rcases mem_addFile.mp hf2 with hf3 | rfl
          · exact Or.inl (List.mem_of_mem_erase hf3)
          · exact Or.inr (Or.inr (Or.inr rfl))
        · exact Or.inr (Or.inl rfl)
      · exact Or.inr (Or.inr (Or.inl rfl))
  · set l3 := addFile (addFile (addFile (removeFile (addFile F snap) old_snap) old_snap)
      (incr_filename a.name nl)) snap with hl3
    have heng : backup_incremental a nl F 0 = some (0, incr_filename a.name nl, snap, l3) := by
      simp only [backup_incremental]
      rw [if_neg hsmem, if_pos hseed]
    refine ⟨l3, ?_, ?_, ?_, ?_, ?_, ?_, ?_, ?_⟩
    · simp only [backup, hcf, hnl2, hold2, Bool.false_eq_true, if_false, heng, h00, if_true]
      split <;> rfl
    · simp only [backup, hcf, hnl2, hold2, Bool.false_eq_true, if_false, heng, h00, if_true]
      split <;> rfl
    · simp only [backup, hcf, hnl2, hold2, Bool.false_eq_true, if_false, heng, h00, if_true]
      split <;> rfl
    · simp only [backup, hcf, hnl2, hold2, Bool.false_eq_true, if_false, heng, h00, if_true]
      split <;> rfl
    · intro f hf
      exact mem_addFile.mpr (Or.inl (mem_addFile.mpr (Or.inl
        (mem_addFile_removeFile old_snap (mem_addFile.mpr (Or.inl hf))))))
    · exact mem_addFile.mpr (Or.inl (mem_addFile.mpr (Or.inr rfl)))
    · exact mem_addFile.mpr (Or.inr rfl)
    · intro f hf
      rcases mem_addFile.mp hf with hf1 | rfl
      · rcases mem_addFile.mp hf1 with hf2 | rfl
        · rcases mem_addFile.mp hf2 with hf3 | rfl
          · rcases mem_addFile.mp (List.mem_of_mem_erase hf3) with hf4 | rfl
            · exact Or.inl hf4
            · exact Or.inr (Or.inr (Or.inl rfl))
          · exact Or.inr (Or.inr (Or.inr rfl))
        · exact Or.inr (Or.inl rfl)
      · exact Or.inr (Or.inr (Or.inl rfl))

theorem backup_step_finish (name : Str) (L C : Nat) (F : List Str) (j : Nat)
    (hinv : BackupInv name L F j)
    (nl : List Nat) (old : List Str) (W : List Nat)
    (hplan : backup_plan ⟨name, (L : Int), (C : Int), false⟩ F = (false, nl, old))
    (hnlne : nl ≠ [])
    (hnlen : nl.length ≤ L - 1)
    (hparent : checkpointName name (nl.length - 1) ∈ F)
    (hmemS : ∀ f ∈ F, is_arch name f = true →
      vle (parse_vals name f) (frontierOf name F))
    (hSW : vle (frontierOf name F) W)
    (hnlW : vle nl W)
    (hWsum : W.sum ≤ (frontierOf name F).sum + 1)
    (hWlen : ∀ d, d ≤ W.length → d ≤ (frontierOf name F).length ∨ d = nl.length)
    (hold : ∀ f ∈ old, is_arch name f = true ∧ parse_vals name f ≠ []) :
    (backup ⟨name, (L : Int), (C : Int), false⟩ 0 [] F).planFull = false ∧
    (backup ⟨name, (L : Int), (C : Int), false⟩ 0 [] F).engineRan = true ∧
    (backup ⟨name, (L : Int), (C : Int), false⟩ 0 [] F).newLevels.length ≤ L - 1 ∧
    BackupInv name L (backup ⟨name, (L : Int), (C : Int), false⟩ 0 [] F).files (j + 1) := by
  obtain ⟨l3, hpf, her, hnl, hfiles, hFsub, harchmem, hsnapmem, hl3sub⟩ :=
    backup_incr_shape ⟨name, (L : Int), (C : Int), false⟩ F nl old hplan hparent
  have hsub : ∀ f ∈ (removeLoop l3 old).2.1, f ∈ F ∨ f = incr_filename name nl
      ∨ f = checkpointName name nl.length
      ∨ f = checkpointName name nl.length ++ ".old".data :=
    fun f hf => hl3sub f (removeLoop_subset old l3 f hf)
  have hbareF2 : (name ++ EXT) ∈ (removeLoop l3 old).2.1 := by
    refine removeLoop_mem old l3 _ (hFsub _ hinv.bare) (fun hcon => ?_)
    exact (hold _ hcon).2 (parse_vals_bare name)
  have hsnarsurv : ∀ d, checkpointName name d ∈ l3 →
      checkpointName name d ∈ (removeLoop l3 old).2.1 := by
    intro d hf
    refine removeLoop_mem old l3 _ hf (fun hcon => ?_)
    have hh := (hold _ hcon).1
    rw [is_arch_checkpoint name name d] at hh
    exact Bool.noConfusion hh
  have hvleW : vle (frontierOf name (removeLoop l3 old).2.1) W := by
    by_cases hne : find_files name (removeLoop l3 old).2.1 = []
    · have hempty : frontierOf name (removeLoop l3 old).2.1 = [] := by
        unfold frontierOf scan_dir
        rw [if_pos (by simpa using hne)]
        rfl
      rw [hempty]
      exact ⟨by simp, fun i => by simp⟩
    · obtain ⟨_, hfr2⟩ := scan_dir_of_ne_nil hne
      rw [hfr2]
      refine scan_fold_vle name W _ [] ⟨by simp, fun i => by simp⟩ ?_
      intro f hf
      obtain ⟨hfF2, hfa⟩ := mem_find_files.mp hf
      rcases hsub f hfF2 with hF | rfl | rfl | rfl
      · exact vle_trans (hmemS f hF hfa) hSW
      · rw [parse_vals_incr name nl hnlne]
        exact hnlW
      · rw [is_arch_checkpoint name name nl.length] at hfa
        exact Bool.noConfusion hfa
      · rw [is_arch_old name name nl.length] at hfa
        exact Bool.noConfusion hfa
  refine ⟨hpf, her, by rw [hnl]; exact hnlen, ?_⟩
  rw [hfiles]
  refine ⟨hbareF2, ?_, ?_, ?_⟩
  · intro f hf hfa
    rcases hsub f hf with hF | rfl | rfl | rfl
    · exact hinv.lens f hF hfa
    · rw [parse_vals_incr name nl hnlne]
      exact hnlen
    · rw [is_arch_checkpoint name name nl.length] at hfa
      exact Bool.noConfusion hfa
    · rw [is_arch_old name name nl.length] at hfa
      exact Bool.noConfusion hfa
  · intro d hd
    have hdW : d ≤ W.length := le_trans hd hvleW.1
    rcases hWlen d hdW with hdS | rfl
    · exact hsnarsurv d (hFsub _ (hinv.snars d hdS))
    · exact hsnarsurv nl.length hsnapmem
  · have := hinv.phi
    exact le_trans (vle_sum hvleW) (le_trans hWsum (by omega))

theorem backup_step_inv (name : Str) (L C : Nat) (F : List Str) (j : Nat)
    (hinv : BackupInv name L F j)
    (hwin : (frontierOf name F).sum < C * (L - 1)) :
    (backup ⟨name, (L : Int), (C : Int), false⟩ 0 [] F).planFull = false ∧
    (backup ⟨name, (L : Int), (C : Int), false⟩ 0 [] F).engineRan = true ∧
    (backup ⟨name, (L : Int), (C : Int), false⟩ 0 [] F).newLevels.length ≤ L - 1 ∧
    BackupInv name L (backup ⟨name, (L : Int), (C : Int), false⟩ 0 [] F).files (j + 1) := by
  have hpos : 0 < C * (L - 1) := lt_of_le_of_lt (Nat.zero_le _) hwin
  have hC : 0 < C := by
    rcases Nat.eq_zero_or_pos C with h0 | h0
    · rw [h0, Nat.zero_mul] at hpos
      exact absurd hpos (lt_irrefl 0)
    · exact h0
  have hL1 : 1 ≤ L - 1 := by
    rcases Nat.eq_zero_or_pos (L - 1) with h0 | h0
    · rw [h0, Nat.mul_zero] at hpos
      exact absurd hpos (lt_irrefl 0)
    · exact h0
  have hbararch : is_arch name (name ++ EXT) = true := by
    have h := is_arch_name_append name []
    simpa using h
  have hffne : find_files name F ≠ [] :=
    List.ne_nil_of_mem (mem_find_files.mpr ⟨hinv.bare, hbararch⟩)
  obtain ⟨hscan, hfr⟩ := scan_dir_of_ne_nil hffne
  have hSlen : (frontierOf name F).length ≤ L - 1 := by
    rw [hfr]
    exact scan_fold_length name (L - 1) _ [] (by simp)
      (fun f hf => by
        obtain ⟨hfF, hfa⟩ := mem_find_files.mp hf
        exact hinv.lens f hfF hfa)
  have hmemS : ∀ f ∈ F, is_arch name f = true →
      vle (parse_vals name f) (frontierOf name F) := by
    intro f hf hfa
    rw [hfr]
    exact scan_fold_mem name _ [] f (mem_find_files.mpr ⟨hf, hfa⟩)
  by_cases hSe : (frontierOf name F).isEmpty
  · -- frontier is []: plan is (false, [1], [])
    have hSnil : frontierOf name F = [] := List.isEmpty_iff.mp hSe
    have hplan : backup_plan ⟨name, (L : Int), (C : Int), false⟩ F = (false, [1], []) := by
      simp only [backup_plan, hscan, hSe, if_true]
    refine backup_step_finish name L C F j hinv [1] [] [1] hplan (by simp)
      (by simp only [List.length_singleton]; omega)
      (by simpa using hinv.snars 0 (by omega)) hmemS ?_ (vle_refl [1]) ?_ ?_ (by simp)
    · rw [hSnil]
      exact ⟨by simp, fun i => by simp⟩
    · rw [hSnil]
      simp
    · intro d hd
      simp only [List.length_singleton] at hd ⊢
      rw [hSnil]
      simp only [List.length_nil]
      omega
  · by_cases hgrow : ((frontierOf name F).length : Int) < (L : Int) - 1
    · -- grow one level deeper: plan is (false, S ++ [1], [])
      have hplan : backup_plan ⟨name, (L : Int), (C : Int), false⟩ F
          = (false, frontierOf name F ++ [1], []) := by
        simp only [backup_plan, hscan, hSe, Bool.false_eq_true, if_false, hgrow, if_true]
      have hlen2 : (frontierOf name F ++ [1]).length = (frontierOf name F).length + 1 := by
        simp
      refine backup_step_finish name L C F j hinv (frontierOf name F ++ [1]) []
        (frontierOf name F ++ [1]) hplan (by simp) (by rw [hlen2]; omega)
        ?_ hmemS ?_ (vle_refl _) (by simp) ?_ (by simp)
      · rw [hlen2]
        simpa using hinv.snars (frontierOf name F).length (le_refl _)
      · refine ⟨by simp, fun i => ?_⟩
        by_cases hi : i < (frontierOf name F).length
        · rw [List.getD_append _ _ _ _ hi]
        · rw [List.getD_eq_default _ _ (by omega)]
          exact Nat.zero_le _
      · intro d hd
        simp only [List.length_append, List.length_singleton] at hd ⊢
        omega
    · -- at maximum depth: the carry loop runs
      rcases hr : cascadeLoop name F (C : Int) (frontierOf name F).length (frontierOf name F) []
        with ⟨cf, ls2, old2⟩
      cases cf with
      | true =>
          exfalso
          have hsum := cascadeLoop_true_sum name F C (frontierOf name F).length
            (frontierOf name F) [] (le_refl _) (by rw [hr])
          have hlen3 : L - 1 ≤ (frontierOf name F).length := by omega
          have : C * (L - 1) ≤ C * (frontierOf name F).length :=
            Nat.mul_le_mul_left C hlen3
          omega
      | false =>
          obtain ⟨hne2, htake, hm1, hmS⟩ := cascadeLoop_false name F (C : Int)
            (frontierOf name F).length (frontierOf name F) [] ls2 old2 hr
          have hplan : backup_plan ⟨name, (L : Int), (C : Int), false⟩ F
              = (false, bumpLast ls2, old2) := by
            simp only [backup_plan, hscan, hSe, Bool.false_eq_true, if_false, hgrow, hr]
          have hm1lt : ls2.length - 1 < (frontierOf name F).length := by omega
          have hbumplen : (bumpLast ls2).length = ls2.length := by
            unfold bumpLast
            simp [List.length_dropLast]
            omega
          have hgetD : ls2.getLastD 0 = (frontierOf name F).getD (ls2.length - 1) 0 := by
            rw [getLastD_eq_getD hne2, htake]
            simp only [List.length_take]
            rw [getD_take (by omega)]
          have hlsLen : ls2.length ≤ L - 1 := le_trans hmS hSlen
          have hdll2 : ls2.dropLast.length = ls2.length - 1 := List.length_dropLast _
          refine backup_step_finish name L C F j hinv (bumpLast ls2) old2
            ((frontierOf name F).set (ls2.length - 1)
              ((frontierOf name F).getD (ls2.length - 1) 0 + 1))
            hplan (by unfold bumpLast; simp) (by rw [hbumplen]; exact hlsLen)
            (by rw [hbumplen]; exact hinv.snars (ls2.length - 1) (by omega))
            hmemS ?_ ?_ ?_ ?_ ?_
          · refine ⟨by rw [List.length_set], fun i => ?_⟩
            by_cases hi : ls2.length - 1 = i
            · subst hi
              rw [getD_set_self hm1lt]
              omega
            · rw [getD_set_ne hi]
          · refine ⟨by rw [List.length_set, hbumplen]; omega, fun i => ?_⟩
            by_cases hi : i < ls2.length - 1
            · have h1 : (bumpLast ls2).getD i 0 = (frontierOf name F).getD i 0 := by
                unfold bumpLast
                rw [List.getD_append _ _ _ _ (show i < ls2.dropLast.length by
                  rw [hdll2]; omega)]
                rw [List.dropLast_eq_take, getD_take hi]
                conv_lhs => rw [htake]
                rw [getD_take (by omega)]
              rw [h1, getD_set_ne (by omega)]
            · by_cases hieq : i = ls2.length - 1
              · subst hieq
                have h1 : (bumpLast ls2).getD (ls2.length - 1) 0 = ls2.getLastD 0 + 1 := by
                  unfold bumpLast
                  rw [List.getD_eq_getElem?_getD,
                    List.getElem?_append_right (le_of_eq hdll2)]
                  rw [hdll2]
                  simp
                rw [h1, hgetD, getD_set_self hm1lt]
              · have h1 : (bumpLast ls2).getD i 0 = 0 := by
                  refine List.getD_eq_default _ _ ?_
                  rw [hbumplen]
                  omega
                rw [h1]
                exact Nat.zero_le _
          · rw [sum_set_succ _ _ hm1lt]
          · intro d hd
            rw [List.length_set] at hd
            exact Or.inl hd
          · intro f hf
            rcases cascadeLoop_old_mem name F (C : Int) (frontierOf name F).length
              (frontierOf name F) [] f (by rw [hr]; exact hf) with hin | ⟨hff, hpv⟩
            · exact absurd hin (List.not_mem_nil f)
            · exact ⟨(mem_find_files.mp hff).2, hpv⟩

theorem backup_full_shape (a : Args) (F : List Str)
    (hplan : backup_plan a F = (true, [], [])) :
    (backup a 0 [] F).planFull = true ∧
    (backup a 0 [] F).engineRan = true ∧
    (backup a 0 [] F).newLevels = [] ∧
    (backup a 0 [] F).files
      = addFile (addFile (removeFile (removeFile F (checkpointName a.name 0)) (a.name ++ EXT))
          (a.name ++ EXT)) (checkpointName a.name 0) := by
  have hcf : (backup_plan a F).1 = true := by rw [hplan]
  have hnl2 : (backup_plan a F).2.1 = [] := by rw [hplan]
  have hold2 : (backup_plan a F).2.2 = [] := by rw [hplan]
  have h00 : ((0 : Int) == 0) = true := by decide
  simp only [backup, hcf, if_true, backup_full, h00, hnl2, hold2, removeLoop,
    Bool.false_eq_true, if_false]
  exact ⟨trivial, trivial, trivial, trivial⟩

theorem backup_base (name : Str) (L C : Nat) :
    (backup ⟨name, (L : Int), (C : Int), false⟩ 0 [] []).planFull = true ∧
    (backup ⟨name, (L : Int), (C : Int), false⟩ 0 [] []).engineRan = true ∧
    (backup ⟨name, (L : Int), (C : Int), false⟩ 0 [] []).newLevels = [] ∧
    BackupInv name L (backup ⟨name, (L : Int), (C : Int), false⟩ 0 [] []).files 0 := by
  have hplan : backup_plan ⟨name, (L : Int), (C : Int), false⟩ [] = (true, [], []) := rfl
  obtain ⟨h1, h2, h3, h4⟩ := backup_full_shape ⟨name, (L : Int), (C : Int), false⟩ [] hplan
  refine ⟨h1, h2, h3, ?_⟩
  rw [h4]
  have hbare : (name ++ EXT)
      ∈ addFile (addFile (removeFile (removeFile [] (checkpointName name 0)) (name ++ EXT))
          (name ++ EXT)) (checkpointName name 0) :=
    mem_addFile.mpr (Or.inl (mem_addFile.mpr (Or.inr rfl)))
  have hsnar : checkpointName name 0
      ∈ addFile (addFile (removeFile (removeFile [] (checkpointName name 0)) (name ++ EXT))
          (name ++ EXT)) (checkpointName name 0) :=
    mem_addFile.mpr (Or.inr rfl)
  have hmem2 : ∀ f ∈ addFile (addFile (removeFile (removeFile [] (checkpointName name 0))
      (name ++ EXT)) (name ++ EXT)) (checkpointName name 0),
      f = (name ++ EXT) ∨ f = checkpointName name 0 := by
    intro f hf
    rcases mem_addFile.mp hf with hf1 | rfl
    · rcases mem_addFile.mp hf1 with hf2 | rfl
      · exact absurd (List.mem_of_mem_erase (List.mem_of_mem_erase hf2))
          (List.not_mem_nil f)
      · exact Or.inl rfl
    · exact Or.inr rfl
  have hlens : ∀ f ∈ addFile (addFile (removeFile (removeFile [] (checkpointName name 0))
      (name ++ EXT)) (name ++ EXT)) (checkpointName name 0),
      is_arch name f = true → (parse_vals name f).length ≤ L - 1 := by
    intro f hf hfa
    rcases hmem2 f hf with rfl | rfl
    · rw [parse_vals_bare name]
      simp
    · rw [is_arch_checkpoint name name 0] at hfa
      exact Bool.noConfusion hfa
  have hflen : (frontierOf name (addFile (addFile (removeFile (removeFile []
      (checkpointName name 0)) (name ++ EXT)) (name ++ EXT)) (checkpointName name 0))).length
      ≤ 0 := by
    by_cases hne : find_files name (addFile (addFile (removeFile (removeFile []
        (checkpointName name 0)) (name ++ EXT)) (name ++ EXT)) (checkpointName name 0)) = []
    · unfold frontierOf scan_dir
      rw [if_pos (by simpa using hne)]
      simp
    · obtain ⟨_, hfr2⟩ := scan_dir_of_ne_nil hne
      rw [hfr2]
      refine scan_fold_length name 0 _ [] (by simp) ?_
      intro f hf
      obtain ⟨hfF, hfa⟩ := mem_find_files.mp hf
      rcases hmem2 f hfF with rfl | rfl
      · rw [parse_vals_bare name]
        simp
      · rw [is_arch_checkpoint name name 0] at hfa
        exact Bool.noConfusion hfa
  have hfnil : frontierOf name (addFile (addFile (removeFile (removeFile []
      (checkpointName name 0)) (name ++ EXT)) (name ++ EXT)) (checkpointName name 0)) = [] :=
    List.eq_nil_of_length_eq_zero (by omega)
  refine ⟨hbare, hlens, ?_, ?_⟩
  · intro d hd
    rw [hfnil] at hd
    simp at hd
    subst hd
    exact hsnar
  · rw [hfnil]
    simp

theorem get_eq_of_getElem_opt {α : Type} (l : List α) (j : Nat) (hj : j < l.length) (y : α)
    (h : l[j]? = some y) : l.get ⟨j, hj⟩ = y := by
  have h3 := List.getElem?_eq_getElem hj
  rw [h] at h3
  have h2 : l[j] = y := (Option.some.inj h3).symm
  simpa [List.get_eq_getElem] using h2

theorem window_aux (name : Str) (L C : Nat) :
    ∀ i, 1 ≤ i → i ≤ (C - 1) * (L - 1) + 1 →
      (runBackups ⟨name, (L : Int), (C : Int), false⟩ i).1.length = i ∧
      BackupInv name L (runBackups ⟨name, (L : Int), (C : Int), false⟩ i).2 (i - 1) ∧
      (∀ j (hj : j < (runBackups ⟨name, (L : Int), (C : Int), false⟩ i).1.length),
        ((runBackups ⟨name, (L : Int), (C : Int), false⟩ i).1.get ⟨j, hj⟩).planFull
            = (j == 0) ∧
        ((runBackups ⟨name, (L : Int), (C : Int), false⟩ i).1.get ⟨j, hj⟩).engineRan = true ∧
        ((runBackups ⟨name, (L : Int), (C : Int), false⟩ i).1.get ⟨j, hj⟩).newLevels.length
            ≤ L - 1) := by
  intro i
  induction i with
  | zero => intro h1 _; omega
  | succ ip ih =>
      intro _ hle
      cases Nat.eq_zero_or_pos ip with
      | inl hz =>
          subst hz
          obtain ⟨hpf, her, hnl, hinv⟩ := backup_base name L C
          refine ⟨by simp [runBackups], by simpa [runBackups] using hinv, ?_⟩
          intro j hj
          have hj0 : j = 0 := by
            simp [runBackups] at hj
            omega
          subst hj0
          have hget : ((runBackups ⟨name, (L : Int), (C : Int), false⟩ 1).1.get ⟨0, hj⟩)
              = backup ⟨name, (L : Int), (C : Int), false⟩ 0 [] [] := rfl
          rw [hget]
          exact ⟨hpf, her, by rw [hnl]; simp⟩
      | inr hpos =>
          obtain ⟨hlen, hinv, hgood⟩ := ih hpos (by omega)
          have hmono : (C - 1) * (L - 1) ≤ C * (L - 1) :=
            Nat.mul_le_mul_right _ (by omega)
          have hwin : (frontierOf name
              (runBackups ⟨name, (L : Int), (C : Int), false⟩ ip).2).sum < C * (L - 1) := by
            have hphi := hinv.phi
            omega
          obtain ⟨hpf, her, hnll, hinv2⟩ := backup_step_inv name L C
            (runBackups ⟨name, (L : Int), (C : Int), false⟩ ip).2 (ip - 1) hinv hwin
          have hrun : runBackups ⟨name, (L : Int), (C : Int), false⟩ (ip + 1)
              = ((runBackups ⟨name, (L : Int), (C : Int), false⟩ ip).1
                  ++ [backup ⟨name, (L : Int), (C : Int), false⟩ 0 []
                    (runBackups ⟨name, (L : Int), (C : Int), false⟩ ip).2],
                (backup ⟨name, (L : Int), (C : Int), false⟩ 0 []
                  (runBackups ⟨name, (L : Int), (C : Int), false⟩ ip).2).files) := rfl
          refine ⟨?_, ?_, ?_⟩
          · rw [hrun]
            simp [hlen]
          · rw [hrun]
            have hip : ip - 1 + 1 = ip := by omega
            rw [hip] at hinv2
            simpa using hinv2
          · intro j hj
            have hjn : j < ip + 1 := by
              have h5 := hj
              rw [hrun] at h5
              simp only [List.length_append, List.length_singleton, hlen] at h5
              exact h5
            by_cases hjip : j < ip
            · have hj2 : j < (runBackups ⟨name, (L : Int), (C : Int), false⟩ ip).1.length := by
                rw [hlen]
                exact hjip
              have hq : (runBackups ⟨name, (L : Int), (C : Int), false⟩ (ip + 1)).1[j]?
                  = some ((runBackups ⟨name, (L : Int), (C : Int), false⟩ ip).1.get
                      ⟨j, hj2⟩) := by
                rw [hrun]
                rw [List.getElem?_append_left hj2, List.getElem?_eq_getElem hj2]
                simp [List.get_eq_getElem]
              have hget := get_eq_of_getElem_opt _ j hj _ hq
              rw [hget]
              exact hgood j hj2
            · have hjeq : j = ip := by omega
              subst hjeq
              have hq : (runBackups ⟨name, (L : Int), (C : Int), false⟩ (j + 1)).1[j]?
                  = some (backup ⟨name, (L : Int), (C : Int), false⟩ 0 []
                      (runBackups ⟨name, (L : Int), (C : Int), false⟩ j).2) := by
                rw [hrun, List.getElem?_append_right (le_of_eq hlen)]
                simp [hlen]
              have hget := get_eq_of_getElem_opt _ j hj _ hq
              rw [hget]
              refine ⟨?_, her, hnll⟩
              rw [hpf]
              have h7 : (j == 0) = false := by
                simp
                omega
              rw [h7]

/-- C2: for every policy with maxLevels = L ≥ 1 and countPerLevel = C ≥ 1,
running `backup` exactly (C−1)·(L−1)+1 times from an empty destination
directory issues exactly one full backup — the first run (`planFull` is true
precisely for run index 0) — and an incremental backup on every other run
(the tar engine runs every time), and the planned level path `newLevels` of
every run, the final one included, has length at most L−1. -/
theorem backup_window_one_full (name : Str) (L C : Nat) (_hL : 1 ≤ L) (_hC : 1 ≤ C) :
    (runBackups ⟨name, (L : Int), (C : Int), false⟩ ((C - 1) * (L - 1) + 1)).1.length
        = (C - 1) * (L - 1) + 1 ∧
    (∀ j (hj : j < (runBackups ⟨name, (L : Int), (C : Int), false⟩
        ((C - 1) * (L - 1) + 1)).1.length),
      ((runBackups ⟨name, (L : Int), (C : Int), false⟩
          ((C - 1) * (L - 1) + 1)).1.get ⟨j, hj⟩).planFull = (j == 0) ∧
      ((runBackups ⟨name, (L : Int), (C : Int), false⟩
          ((C - 1) * (L - 1) + 1)).1.get ⟨j, hj⟩).engineRan = true ∧
      ((runBackups ⟨name, (L : Int), (C : Int), false⟩
          ((C - 1) * (L - 1) + 1)).1.get ⟨j, hj⟩).newLevels.length ≤ L - 1) := by
  obtain ⟨h1, _, h3⟩ :=
    window_aux name L C ((C - 1) * (L - 1) + 1) (by omega) le_rfl
  exact ⟨h1, h3⟩

theorem backup_window_one_full_witness :
    (1 ≤ 3 ∧ 1 ≤ 2) ∧
    ((runBackups ⟨"NAME".data, (3 : Int), (2 : Int), false⟩ ((2 - 1) * (3 - 1) + 1)).1.length
        = (2 - 1) * (3 - 1) + 1 ∧
    (∀ j (hj : j < (runBackups ⟨"NAME".data, (3 : Int), (2 : Int), false⟩
        ((2 - 1) * (3 - 1) + 1)).1.length),
      ((runBackups ⟨"NAME".data, (3 : Int), (2 : Int), false⟩
          ((2 - 1) * (3 - 1) + 1)).1.get ⟨j, hj⟩).planFull = (j == 0) ∧
      ((runBackups ⟨"NAME".data, (3 : Int), (2 : Int), false⟩
          ((2 - 1) * (3 - 1) + 1)).1.get ⟨j, hj⟩).engineRan = true ∧
      ((runBackups ⟨"NAME".data, (3 : Int), (2 : Int), false⟩
          ((2 - 1) * (3 - 1) + 1)).1.get ⟨j, hj⟩).newLevels.length ≤ 3 - 1)) :=
  ⟨⟨by decide, by decide⟩,
    backup_window_one_full "NAME".data 3 2 (by decide) (by decide)⟩
